import Mathlib

/-!
Shallow embedding of `src/homework.cpp`, a spin-lock benchmark that sums the
integers from 1,000,000 to 5,000,000 across N threads, comparing a test-and-set
lock, a test-and-test-and-set lock and an exponential-backoff lock against an
unlocked baseline.  Pure functions below mirror the source; the concurrent
accumulator is modelled by an explicit interleaving (schedule) semantics.
All machine integers in the source stay far below their bounds (proved below),
so `int` / `long long` are embedded as `ℤ` (and loop counters as `ℕ`).
-/

namespace Homework

/-- Constant `START_NUM` (homework.cpp line 14). -/
def START_NUM : ℤ := 1000000

/-- Constant `END_NUM` (homework.cpp line 15). -/
def END_NUM : ℤ := 5000000

/-- Constant `NUM_OPERATIONS = END_NUM - START_NUM + 1` (line 16); it is
nonnegative, so it is kept as a `ℕ`. -/
def NUM_OPERATIONS : ℕ := (END_NUM - START_NUM + 1).toNat

/-- One spin-lock algorithm, embedded by the effect of a single iteration of
its `lock()` spin loop on the flag: `attempt b = (acquired, newFlag)`,
together with the initial flag value of a fresh instance and `unlock`. -/
structure LockAlg where
  init : Bool
  attempt : Bool → Bool × Bool
  unlock : Bool → Bool

/-- `TAS_Lock` (lines 29-38): `lock()` spins on `exchange(true)`.  One
iteration acquires exactly when the exchanged-out old value was `false`, and
always leaves the flag `true`; `unlock()` stores `false`. -/
def TAS_Lock : LockAlg :=
  { init := false
    attempt := fun b => (!b, true)
    unlock := fun _ => false }

/-- `TTAS_Lock` (lines 43-59): one iteration first does a plain load; if the
flag reads `true` it does nothing, otherwise it runs
`compare_exchange_weak(false, true)`, which on the current flag value `false`
succeeds and stores `true`.  `unlock()` stores `false`. -/
def TTAS_Lock : LockAlg :=
  { init := false
    attempt := fun b => cond b (false, b) (true, true)
    unlock := fun _ => false }

/-- Constant `MAX_DELAY` inside `Backoff_Lock::lock` (line 69). -/
def MAX_DELAY : ℕ := 1024

/-- `Backoff_Lock` (lines 64-88): the flag transition of one iteration is
identical to `TTAS_Lock`; the backoff delay bookkeeping of the failing path is
modelled separately by `backoffDelayAfter`. -/
def Backoff_Lock : LockAlg :=
  { init := false
    attempt := fun b => cond b (false, b) (true, true)
    unlock := fun _ => false }

/-- Modelled from the spec: the pure atomic-flag lock variant appears only in
the second harness version described by the spec and is absent from `src/`;
per the spec it is "functionally identical acquire/release semantics" to the
test-and-set lock, using test-and-set on an atomic flag and a clear on
release. -/
def AtomicFlag_Lock : LockAlg :=
  { init := false
    attempt := fun b => (!b, true)
    unlock := fun _ => false }

/-- Value of `current_delay` after `k` failed iterations of a single
`Backoff_Lock::lock()` call (lines 67-83): initialised to 1 at the start of
the call, and after each failed iteration set to
`min (current_delay * 2) MAX_DELAY`. -/
def backoffDelayAfter : ℕ → ℕ
  | 0 => 1
  | k + 1 => min (backoffDelayAfter k * 2) MAX_DELAY

/-- The shared `{acquire, release}` capability contract, at the granularity of
one spin iteration: a fresh instance is unlocked; an iteration on a free lock
acquires it and sets the flag; an iteration on a held lock does not acquire
and leaves the flag held (mutual exclusion of the attempt); release always
clears the flag. -/
def SatisfiesContract (L : LockAlg) : Prop :=
  L.init = false ∧ L.attempt false = (true, true) ∧ L.attempt true = (false, true) ∧
    L.unlock true = false ∧ L.unlock false = false

/-- Per-thread range size `range_size` in the partition loop (line 143):
`NUM_OPERATIONS / num_threads + (i < NUM_OPERATIONS % num_threads ? 1 : 0)`,
generalised over the total and the thread count.  Both are nonnegative `int`s
in the source, so they are kept as `ℕ`; C++ `int` division and `%` on
nonnegative operands agree with `ℕ` division and mod. -/
def sizeAt (total n i : ℕ) : ℕ := total / n + (if i < total % n then 1 else 0)

/-- The partition loop of `run_experiment` (lines 139-159), iterations `i` to
`n - 1` (`fuel = n - i`), carrying `current_start = cs`: each iteration
computes `current_end = current_start + range_size - 1`, clamps it down to
`endNum` when it exceeds `endNum` (lines 146-148), records the sub-range, and
continues from `current_end + 1`. -/
def partAux (endNum : ℤ) (total n : ℕ) : ℕ → ℕ → ℤ → List (ℤ × ℤ)
  | 0, _, _ => []
  | fuel + 1, i, cs =>
    let ce : ℤ := cs + (sizeAt total n i : ℤ) - 1
    let ce2 : ℤ := if endNum < ce then endNum else ce
    (cs, ce2) :: partAux endNum total n fuel (i + 1) (ce2 + 1)

/-- The full partition produced by the loop for a range starting at `s` with
`total` elements (the source's clamp bound `END_NUM` is `s + total - 1`) and
`n` threads. -/
def partition (s : ℤ) (total n : ℕ) : List (ℤ × ℤ) :=
  partAux (s + total - 1) total n n 0 s

/-- The same loop with the corrective clamp branch (lines 146-148) removed,
so each recorded end is the raw `current_start + range_size - 1`. -/
def partAuxNoClamp (total n : ℕ) : ℕ → ℕ → ℤ → List (ℤ × ℤ)
  | 0, _, _ => []
  | fuel + 1, i, cs =>
    let ce : ℤ := cs + (sizeAt total n i : ℤ) - 1
    (cs, ce) :: partAuxNoClamp total n fuel (i + 1) (ce + 1)

/-- `partition` with the clamp branch removed. -/
def partitionNoClamp (s : ℤ) (total n : ℕ) : List (ℤ × ℤ) :=
  partAuxNoClamp total n n 0 s

/-- Number of workload elements assigned to threads `0 .. k-1`. -/
def prefixCount (total n k : ℕ) : ℕ := k * (total / n) + min k (total % n)

/-- Closed form of the `j`-th sub-range: it starts right after the elements
assigned to threads `0 .. j-1` and holds `sizeAt total n j` elements. -/
def idealPiece (s : ℤ) (total n j : ℕ) : ℤ × ℤ :=
  (s + prefixCount total n j, s + prefixCount total n (j + 1) - 1)

/-- Body of both worker functions (lines 98-116): the loop
`for (int i = start_val; i <= end_val; ++i) counter += i`, as explicit state
passing; `fuel` is the remaining iteration count. -/
def workerLoop : ℕ → ℤ → ℤ → ℤ
  | 0, counter, _ => counter
  | fuel + 1, counter, i => workerLoop fuel (counter + i) (i + 1)

/-- `worker_function_with_lock` (lines 98-105): each `counter += i` is one
whole critical section under the supplied lock, so the function's total
effect on the accumulator is the sequential accumulation of its sub-range. -/
def worker_function_with_lock (counter start_val end_val : ℤ) : ℤ :=
  workerLoop (end_val + 1 - start_val).toNat counter start_val

/-- `worker_function_no_lock` (lines 112-116): the same accumulation loop
without a lock. -/
def worker_function_no_lock (counter start_val end_val : ℤ) : ℤ :=
  workerLoop (end_val + 1 - start_val).toNat counter start_val

/-- The mutation trace of a worker loop: the values added to the accumulator,
one per iteration, in loop order. -/
def workerOpsAux : ℕ → ℤ → List ℤ
  | 0, _ => []
  | fuel + 1, i => i :: workerOpsAux fuel (i + 1)

/-- The mutation trace of a worker assigned `[start_val, end_val]`. -/
def workerMutations (start_val end_val : ℤ) : List ℤ :=
  workerOpsAux (end_val + 1 - start_val).toNat start_val

/-- `sum_to_end = (long long)END_NUM * (END_NUM + 1) / 2` (line 130).  All
operands are nonnegative, so C++ truncating division agrees with `ℤ`
division here. -/
def sum_to_end : ℤ := END_NUM * (END_NUM + 1) / 2

/-- `sum_to_start_minus_1 = (long long)(START_NUM - 1) * START_NUM / 2`
(line 131). -/
def sum_to_start_minus_1 : ℤ := (START_NUM - 1) * START_NUM / 2

/-- `expected_result` (line 132). -/
def expected_result : ℤ := sum_to_end - sum_to_start_minus_1

/-- The four mutual-exclusion strategies selectable per experiment. -/
inductive LockVariant where
  | tas
  | atomicFlag
  | ttas
  | backoff

/-- The jobs spawned by `run_experiment` (lines 150-156): one worker per
sub-range of the partition, identified by its critical-section mutation
trace. -/
def threadJobs (n : ℕ) : List (List ℤ) :=
  (partition START_NUM NUM_OPERATIONS n).map fun p => workerMutations p.1 p.2

/-- The jobs under a chosen lock variant: the critical-section body
(line 102, `counter += i`) is the same for every variant — the variant only
changes how a worker spins while waiting — so the protected mutation traces
do not depend on it. -/
def lockedThreadJobs (v : LockVariant) (n : ℕ) : List (List ℤ) :=
  threadJobs n

/-- One interleaving step of the concurrent phase: schedule entry `t` lets
thread `t` run its next critical section, which (each `counter += i` being
protected by the lock) atomically adds that thread's next pending value to
the shared accumulator; an entry naming a finished or nonexistent thread
changes nothing. -/
def schedStep (st : ℤ × List (List ℤ)) (t : ℕ) : ℤ × List (List ℤ) :=
  match st.2.getD t [] with
  | [] => st
  | v :: rest => (st.1 + v, st.2.set t rest)

/-- Run a whole interleaving. -/
def runSched (st : ℤ × List (List ℤ)) (sched : List ℕ) : ℤ × List (List ℤ) :=
  sched.foldl schedStep st

/-- A schedule is complete for a start state when it drains every thread's
pending work — this is exactly "all workers have been joined" (lines
162-164). -/
def CompleteSched (st : ℤ × List (List ℤ)) (sched : List ℕ) : Prop :=
  ∀ l ∈ (runSched st sched).2, l = []

/-- Total work still pending. -/
def pendingSum (jobs : List (List ℤ)) : ℤ :=
  (jobs.map List.sum).sum

/-- `run_experiment` (lines 122-185), as far as the accumulator and verdict
are concerned: the incoming value `shared0` of the global `shared_counter` is
overwritten with 0 (line 126) before any worker is spawned; the partitioned
workers then run to completion under an interleaving `sched`; only after all
joins is the counter read and compared with `expected_result` (line 174).
Returns (final counter, is_correct).  `num_threads` is an `int`; for
`num_threads ≤ 0` the partition loop body never runs, which `Int.toNat`
mirrors. -/
def run_experiment (shared0 : ℤ) (num_threads : ℤ) (sched : List ℕ) : ℤ × Bool :=
  let counter0 : ℤ := 0
  let st := runSched (counter0, threadJobs num_threads.toNat) sched
  (st.1, decide (st.1 = expected_result))

/-- C5: the program provides four interchangeable lock variants — naive
test-and-set, the pure atomic-flag variant (modelled from the spec, absent
from `src/`), test-and-test-and-set, and exponential backoff — all satisfying
the same `{acquire, release}` capability contract. -/
theorem lock_variants_contract :
    SatisfiesContract TAS_Lock ∧ SatisfiesContract AtomicFlag_Lock ∧
      SatisfiesContract TTAS_Lock ∧ SatisfiesContract Backoff_Lock :=
  ⟨⟨rfl, rfl, rfl, rfl, rfl⟩, ⟨rfl, rfl, rfl, rfl, rfl⟩,
    ⟨rfl, rfl, rfl, rfl, rfl⟩, ⟨rfl, rfl, rfl, rfl, rfl⟩⟩

/-- C8: every lock instance defined in the source (TAS, TTAS, Backoff) begins
unlocked (`flag = false`); acquiring an unlocked lock succeeds and sets the
flag, and a subsequent release restores the initial unlocked state — a round
trip back to the initial lock state. -/
theorem lock_init_and_roundtrip :
    (TAS_Lock.init = false ∧ TTAS_Lock.init = false ∧ Backoff_Lock.init = false) ∧
    ((TAS_Lock.attempt TAS_Lock.init).1 = true ∧
      TAS_Lock.unlock (TAS_Lock.attempt TAS_Lock.init).2 = TAS_Lock.init) ∧
    ((TTAS_Lock.attempt TTAS_Lock.init).1 = true ∧
      TTAS_Lock.unlock (TTAS_Lock.attempt TTAS_Lock.init).2 = TTAS_Lock.init) ∧
    ((Backoff_Lock.attempt Backoff_Lock.init).1 = true ∧
      Backoff_Lock.unlock (Backoff_Lock.attempt Backoff_Lock.init).2 = Backoff_Lock.init) :=
  ⟨⟨rfl, rfl, rfl⟩, ⟨rfl, rfl⟩, ⟨rfl, rfl⟩, ⟨rfl, rfl⟩⟩

/-- C6: in `Backoff_Lock::lock`, the delay starts at 1 at the beginning of
every acquire call (the local `current_delay` is re-initialised, never carried
over), is doubled with a cap of `MAX_DELAY = 1024` after every failed
attempt, and after `k` failed attempts equals `min (2 ^ k) 1024`. -/
theorem backoff_delay_formula :
    backoffDelayAfter 0 = 1 ∧
    (∀ k, backoffDelayAfter (k + 1) = min (backoffDelayAfter k * 2) MAX_DELAY) ∧
    ∀ k, backoffDelayAfter k = min (2 ^ k) 1024 := by
  refine ⟨rfl, fun k => rfl, fun k => ?_⟩
  induction k with
  | zero => rfl
  | succ k ih =>
    have hstep : backoffDelayAfter (k + 1) = min (backoffDelayAfter k * 2) MAX_DELAY := rfl
    rw [hstep, ih, pow_succ]
    unfold MAX_DELAY
    generalize (2 : ℕ) ^ k = X
    omega

theorem prefixCount_zero (total n : ℕ) : prefixCount total n 0 = 0 := by
  simp [prefixCount]

theorem prefixCount_succ (total n k : ℕ) :
    prefixCount total n (k + 1) = prefixCount total n k + sizeAt total n k := by
  unfold prefixCount sizeAt
  by_cases h : k < total % n
  · have h1 : min (k + 1) (total % n) = k + 1 := Nat.min_eq_left (by omega)
    have h2 : min k (total % n) = k := Nat.min_eq_left (by omega)
    rw [h1, h2, if_pos h]
    ring
  · have h1 : min (k + 1) (total % n) = total % n := Nat.min_eq_right (by omega)
    have h2 : min k (total % n) = total % n := Nat.min_eq_right (by omega)
    rw [h1, h2, if_neg h]
    ring

theorem prefixCount_le (total n : ℕ) {k : ℕ} (hk : k ≤ n) :
    prefixCount total n k ≤ total :=
  calc k * (total / n) + min k (total % n)
      ≤ n * (total / n) + total % n :=
        Nat.add_le_add (mul_le_mul_right' hk _) (min_le_right _ _)
    _ = total := Nat.div_add_mod total n

theorem prefixCount_mono (total n : ℕ) {j k : ℕ} (h : j ≤ k) :
    prefixCount total n j ≤ prefixCount total n k :=
  Nat.add_le_add (mul_le_mul_right' h _) (min_le_min h le_rfl)

theorem prefixCount_n (total n : ℕ) (hn : 1 ≤ n) : prefixCount total n n = total := by
  unfold prefixCount
  have h1 : total % n < n := Nat.mod_lt _ (by omega)
  rw [Nat.min_eq_right (by omega)]
  exact Nat.div_add_mod total n

theorem partAux_closed (s : ℤ) (total n : ℕ) :
    ∀ fuel i, i + fuel ≤ n →
      partAux (s + total - 1) total n fuel i (s + prefixCount total n i) =
        (List.range fuel).map (fun t => idealPiece s total n (i + t)) := by
  intro fuel
  induction fuel with
  | zero => intro i _; rfl
  | succ fuel ih =>
    intro i hi
    have hle : prefixCount total n (i + 1) ≤ total := prefixCount_le total n (by omega)
    have hle' : ((prefixCount total n (i + 1) : ℕ) : ℤ) ≤ (total : ℤ) := by exact_mod_cast hle
    have hsz : (prefixCount total n i : ℤ) + (sizeAt total n i : ℤ)
        = (prefixCount total n (i + 1) : ℤ) := by
      exact_mod_cast (prefixCount_succ total n i).symm
    have hnoclamp : ¬ (s + (total : ℤ) - 1 <
        s + (prefixCount total n i : ℤ) + (sizeAt total n i : ℤ) - 1) := by omega
    simp only [partAux]
    rw [if_neg hnoclamp]
    have hps : s + (prefixCount total n i : ℤ) + (sizeAt total n i : ℤ)
        = s + (prefixCount total n (i + 1) : ℤ) := by omega
    rw [hps, sub_add_cancel, ih (i + 1) (by omega),
      List.range_succ_eq_map, List.map_cons, List.map_map]
    congr 1
    refine List.map_congr_left fun a ha => ?_
    show idealPiece s total n (i + 1 + a) = idealPiece s total n (i + (a + 1))
    rw [show i + 1 + a = i + (a + 1) from by omega]

theorem partAuxNoClamp_closed (s : ℤ) (total n : ℕ) :
    ∀ fuel i,
      partAuxNoClamp total n fuel i (s + prefixCount total n i) =
        (List.range fuel).map (fun t => idealPiece s total n (i + t)) := by
  intro fuel
  induction fuel with
  | zero => intro i; rfl
  | succ fuel ih =>
    intro i
    have hsz : (prefixCount total n i : ℤ) + (sizeAt total n i : ℤ)
        = (prefixCount total n (i + 1) : ℤ) := by
      exact_mod_cast (prefixCount_succ total n i).symm
    simp only [partAuxNoClamp]
    have hps : s + (prefixCount total n i : ℤ) + (sizeAt total n i : ℤ)
        = s + (prefixCount total n (i + 1) : ℤ) := by omega
    rw [hps, sub_add_cancel, ih (i + 1),
      List.range_succ_eq_map, List.map_cons, List.map_map]
    congr 1
    refine List.map_congr_left fun a ha => ?_
    show idealPiece s total n (i + 1 + a) = idealPiece s total n (i + (a + 1))
    rw [show i + 1 + a = i + (a + 1) from by omega]

theorem partition_closed (s : ℤ) (total n : ℕ) :
    partition s total n = (List.range n).map (idealPiece s total n) := by
  have h := partAux_closed s total n n 0 (by omega)
  simpa [partition, prefixCount_zero] using h

theorem partitionNoClamp_closed (s : ℤ) (total n : ℕ) :
    partitionNoClamp s total n = (List.range n).map (idealPiece s total n) := by
  have h := partAuxNoClamp_closed s total n n 0
  simpa [partitionNoClamp, prefixCount_zero] using h

/-- Index-crossing: if `d` lies between `f 0` and `f N`, some step of `f`
crosses it. -/
theorem exists_cross (f : ℕ → ℕ) :
    ∀ N d : ℕ, f 0 ≤ d → d < f N → ∃ j, j < N ∧ f j ≤ d ∧ d < f (j + 1) := by
  intro N
  induction N with
  | zero => intro d h0 hN; omega
  | succ N ih =>
    intro d h0 hN
    by_cases h : f N ≤ d
    · exact ⟨N, by omega, h, hN⟩
    · obtain ⟨j, hj, h1, h2⟩ := ih d h0 (by omega)
      exact ⟨j, by omega, h1, h2⟩

/-- C1: for every total range size `T ≥ 0` and thread count `N ≥ 1`, the
partition loop produces exactly `N` contiguous, non-overlapping, gap-free
sub-ranges ordered by starting value whose union is exactly `[s, s + T - 1]`,
where sub-range `i` has size `T / N + 1` if `i < T % N` and `T / N` otherwise;
in particular for `T = 10`, `N = 3` the sub-ranges are `(1,4), (5,7), (8,10)`
of sizes 4, 3, 3 covering exactly `1..10`. -/
theorem partition_spec (s : ℤ) (T N : ℕ) (hN : 1 ≤ N) :
    (partition s T N).length = N ∧
    (∀ i (h : i < (partition s T N).length),
        ((partition s T N)[i]).2 + 1 - ((partition s T N)[i]).1
          = (T / N : ℕ) + if i < T % N then (1 : ℤ) else 0) ∧
    (∀ i (h1 : i < (partition s T N).length) (h2 : i + 1 < (partition s T N).length),
        ((partition s T N)[i + 1]).1 = ((partition s T N)[i]).2 + 1 ∧
        ((partition s T N)[i]).1 ≤ ((partition s T N)[i + 1]).1) ∧
    (∀ x : ℤ, (∃ p ∈ partition s T N, p.1 ≤ x ∧ x ≤ p.2) ↔ s ≤ x ∧ x ≤ s + T - 1) ∧
    partition 1 10 3 = [(1, 4), (5, 7), (8, 10)] := by
  have hclosed := partition_closed s T N
  have hlen : (partition s T N).length = N := by
    rw [hclosed, List.length_map, List.length_range]
  refine ⟨hlen, ?_, ?_, ?_, by decide⟩
  · intro i h
    have hi : i < N := by omega
    have hget : (partition s T N)[i] = idealPiece s T N i := by
      simp [hclosed, List.getElem_map, List.getElem_range]
    rw [hget]
    have hsz := prefixCount_succ T N i
    by_cases hc : i < T % N
    · rw [if_pos hc]
      have : prefixCount T N (i + 1) = prefixCount T N i + (T / N + 1) := by
        rw [hsz]; simp [sizeAt, hc]
      simp only [idealPiece, this]
      push_cast
      ring
    · rw [if_neg hc]
      have : prefixCount T N (i + 1) = prefixCount T N i + T / N := by
        rw [hsz]; simp [sizeAt, hc]
      simp only [idealPiece, this]
      push_cast
      ring
  · intro i h1 h2
    have hget1 : (partition s T N)[i] = idealPiece s T N i := by
      simp [hclosed, List.getElem_map, List.getElem_range]
    have hget2 : (partition s T N)[i + 1] = idealPiece s T N (i + 1) := by
      simp [hclosed, List.getElem_map, List.getElem_range]
    rw [hget1, hget2]
    have hmono : prefixCount T N i ≤ prefixCount T N (i + 1) :=
      prefixCount_mono T N (by omega)
    have hmono' : ((prefixCount T N i : ℕ) : ℤ) ≤ ((prefixCount T N (i + 1) : ℕ) : ℤ) := by
      exact_mod_cast hmono
    constructor
    · simp only [idealPiece]
      ring
    · simp only [idealPiece]
      omega
  · intro x
    constructor
    · rintro ⟨p, hp, hpx1, hpx2⟩
      rw [hclosed] at hp
      simp only [List.mem_map, List.mem_range] at hp
      obtain ⟨j, hj, rfl⟩ := hp
      have h1 : prefixCount T N (j + 1) ≤ T := prefixCount_le T N (by omega)
      have h1' : ((prefixCount T N (j + 1) : ℕ) : ℤ) ≤ (T : ℤ) := by exact_mod_cast h1
      have h0 : (0 : ℤ) ≤ ((prefixCount T N j : ℕ) : ℤ) := by exact_mod_cast Nat.zero_le _
      simp only [idealPiece] at hpx1 hpx2
      omega
    · rintro ⟨hx1, hx2⟩
      have hxd : ((x - s).toNat : ℤ) = x - s := Int.toNat_of_nonneg (by omega)
      have hdT : (x - s).toNat < T := by omega
      have h0 : prefixCount T N 0 ≤ (x - s).toNat := by
        rw [prefixCount_zero]; exact Nat.zero_le _
      have hNN : (x - s).toNat < prefixCount T N N := by
        rw [prefixCount_n T N hN]; exact hdT
      obtain ⟨j, hj, hj1, hj2⟩ := exists_cross (prefixCount T N) N (x - s).toNat h0 hNN
      refine ⟨idealPiece s T N j, ?_, ?_, ?_⟩
      · rw [hclosed]
        exact List.mem_map_of_mem _ (List.mem_range.mpr hj)
      · have : ((prefixCount T N j : ℕ) : ℤ) ≤ ((x - s).toNat : ℤ) := by exact_mod_cast hj1
        simp only [idealPiece]
        omega
      · have : ((x - s).toNat : ℤ) < ((prefixCount T N (j + 1) : ℕ) : ℤ) := by
          exact_mod_cast hj2
        simp only [idealPiece]
        omega

/-- Witness for C1: the union property of `partition_spec` applied at the
concrete input `s = 1`, `T = 10`, `N = 3`, `x = 7`. -/
theorem partition_spec_witness : ∃ p ∈ partition 1 10 3, p.1 ≤ 7 ∧ 7 ≤ p.2 :=
  ((partition_spec 1 10 3 (by decide)).2.2.2.1 7).mpr (by decide)

/-- C10: for every thread count `N ≥ 1`, the partition loop of the experiment
runner equals the loop with the corrective clamp branch removed; every
recorded end, and every raw computed end `current_start + range_size - 1`,
stays at or below `END_NUM`, so the clamp branch is never taken. -/
theorem clamp_never_taken (N : ℕ) (hN : 1 ≤ N) :
    partition START_NUM NUM_OPERATIONS N = partitionNoClamp START_NUM NUM_OPERATIONS N ∧
    (∀ p ∈ partitionNoClamp START_NUM NUM_OPERATIONS N, p.2 ≤ END_NUM) ∧
    ∀ i (h : i < (partition START_NUM NUM_OPERATIONS N).length),
      ((partition START_NUM NUM_OPERATIONS N)[i]).1
        + (sizeAt NUM_OPERATIONS N i : ℤ) - 1 ≤ END_NUM := by
  have hEND : END_NUM = START_NUM + (NUM_OPERATIONS : ℤ) - 1 := by decide
  have hclosed := partition_closed START_NUM NUM_OPERATIONS N
  refine ⟨by rw [hclosed, partitionNoClamp_closed], ?_, ?_⟩
  · intro p hp
    rw [partitionNoClamp_closed] at hp
    simp only [List.mem_map, List.mem_range] at hp
    obtain ⟨j, hj, rfl⟩ := hp
    have h1 : prefixCount NUM_OPERATIONS N (j + 1) ≤ NUM_OPERATIONS :=
      prefixCount_le NUM_OPERATIONS N (by omega)
    have h1' : ((prefixCount NUM_OPERATIONS N (j + 1) : ℕ) : ℤ) ≤ (NUM_OPERATIONS : ℤ) := by
      exact_mod_cast h1
    simp only [idealPiece]
    omega
  · intro i h
    have hget : (partition START_NUM NUM_OPERATIONS N)[i]
        = idealPiece START_NUM NUM_OPERATIONS N i := by
      simp [hclosed, List.getElem_map, List.getElem_range]
    have hi : i < N := by
      rw [hclosed, List.length_map, List.length_range] at h; exact h
    have hsz := prefixCount_succ NUM_OPERATIONS N i
    have h1 : prefixCount NUM_OPERATIONS N (i + 1) ≤ NUM_OPERATIONS :=
      prefixCount_le NUM_OPERATIONS N (by omega)
    have h1' : ((prefixCount NUM_OPERATIONS N (i + 1) : ℕ) : ℤ) ≤ (NUM_OPERATIONS : ℤ) := by
      exact_mod_cast h1
    have hsz' : ((prefixCount NUM_OPERATIONS N i : ℕ) : ℤ) + (sizeAt NUM_OPERATIONS N i : ℤ)
        = ((prefixCount NUM_OPERATIONS N (i + 1) : ℕ) : ℤ) := by
      exact_mod_cast hsz.symm
    rw [hget]
    simp only [idealPiece]
    omega

/-- Witness for C10: the clamp-free equality at `N = 3`. -/
theorem clamp_never_taken_witness :
    partition START_NUM NUM_OPERATIONS 3 = partitionNoClamp START_NUM NUM_OPERATIONS 3 :=
  (clamp_never_taken 3 (by decide)).1

theorem workerOpsAux_count (fuel : ℕ) : ∀ i v : ℤ,
    (workerOpsAux fuel i).count v = if i ≤ v ∧ v < i + (fuel : ℤ) then 1 else 0 := by
  induction fuel with
  | zero =>
    intro i v
    have h : ¬(i ≤ v ∧ v < i + ((0 : ℕ) : ℤ)) := by push_cast; omega
    simp only [workerOpsAux, List.count_nil]
    rw [if_neg h]
  | succ fuel ih =>
    intro i v
    simp only [workerOpsAux, List.count_cons, beq_iff_eq, ih (i + 1) v]
    push_cast
    split_ifs <;> omega

theorem workerOpsAux_sum (fuel : ℕ) : ∀ i : ℤ,
    (workerOpsAux fuel i).sum = ∑ x ∈ Finset.Icc i (i + (fuel : ℤ) - 1), x := by
  induction fuel with
  | zero =>
    intro i
    have h : Finset.Icc i (i + ((0 : ℕ) : ℤ) - 1) = ∅ :=
      Finset.Icc_eq_empty (by push_cast; omega)
    simp [workerOpsAux, h]
  | succ fuel ih =>
    intro i
    have hins : Finset.Icc i (i + ((fuel + 1 : ℕ) : ℤ) - 1)
        = insert i (Finset.Icc (i + 1) (i + 1 + (fuel : ℤ) - 1)) := by
      ext x
      simp only [Finset.mem_Icc, Finset.mem_insert]
      push_cast
      omega
    simp only [workerOpsAux, List.sum_cons]
    rw [ih (i + 1), hins,
      Finset.sum_insert (by simp only [Finset.mem_Icc]; omega)]

theorem workerLoop_eq (fuel : ℕ) : ∀ c i : ℤ,
    workerLoop fuel c i = c + (workerOpsAux fuel i).sum := by
  induction fuel with
  | zero => intro c i; simp [workerLoop, workerOpsAux]
  | succ fuel ih =>
    intro c i
    simp only [workerLoop, workerOpsAux, List.sum_cons]
    rw [ih]
    ring

theorem worker_with_lock_sum (c s e : ℤ) :
    worker_function_with_lock c s e = c + ∑ x ∈ Finset.Icc s e, x := by
  unfold worker_function_with_lock
  rw [workerLoop_eq, workerOpsAux_sum]
  by_cases h : s ≤ e
  · have ht : (((e + 1 - s).toNat : ℕ) : ℤ) = e + 1 - s := Int.toNat_of_nonneg (by omega)
    rw [ht, show s + (e + 1 - s) - 1 = e from by ring]
  · have h0 : (e + 1 - s).toNat = 0 := by omega
    have h1 : Finset.Icc s (s + (((e + 1 - s).toNat : ℕ) : ℤ) - 1) = ∅ :=
      Finset.Icc_eq_empty (by rw [h0]; push_cast; omega)
    have h2 : Finset.Icc s e = ∅ := Finset.Icc_eq_empty (by omega)
    rw [h1, h2]

/-- C2: for every sub-range `[start_val, end_val]` and every initial
accumulator value `c`, a worker task (locked or unlocked baseline) performs
exactly one accumulator mutation per value of its sub-range, adding that
value — the mutation trace counts each value of `[start_val, end_val]` once
and contains nothing else — so it ends with `c` plus the sum of the integers
from `start_val` to `end_val`; when `start_val > end_val` it performs no
mutation. -/
theorem worker_accumulates (c s e : ℤ) :
    worker_function_with_lock c s e = c + ∑ x ∈ Finset.Icc s e, x ∧
    worker_function_no_lock c s e = c + ∑ x ∈ Finset.Icc s e, x ∧
    (∀ v : ℤ, (workerMutations s e).count v = if s ≤ v ∧ v ≤ e then 1 else 0) ∧
    (e < s → workerMutations s e = []) := by
  refine ⟨worker_with_lock_sum c s e, worker_with_lock_sum c s e, ?_, ?_⟩
  · intro v
    unfold workerMutations
    rw [workerOpsAux_count]
    have hiff : (s ≤ v ∧ v < s + (((e + 1 - s).toNat : ℕ) : ℤ)) ↔ (s ≤ v ∧ v ≤ e) := by
      omega
    simp only [hiff]
  · intro hlt
    unfold workerMutations
    rw [show (e + 1 - s).toNat = 0 from by omega]
    rfl

/-- Witness for C2: a worker whose sub-range is empty (`start_val = 3 >
1 = end_val`) performs no mutation. -/
theorem worker_accumulates_witness : workerMutations 3 1 = [] :=
  (worker_accumulates 5 3 1).2.2.2 (by decide)

/-- Gauss: twice the sum of the `n` consecutive integers starting at `s`. -/
theorem sum_Icc_gauss : ∀ (n : ℕ) (s : ℤ),
    2 * ∑ x ∈ Finset.Icc s (s + (n : ℤ) - 1), x = n * (2 * s + n - 1) := by
  intro n
  induction n with
  | zero =>
    intro s
    have h : Finset.Icc s (s + ((0 : ℕ) : ℤ) - 1) = ∅ :=
      Finset.Icc_eq_empty (by push_cast; omega)
    simp [h]
  | succ n ih =>
    intro s
    have hins : Finset.Icc s (s + ((n + 1 : ℕ) : ℤ) - 1)
        = insert s (Finset.Icc (s + 1) (s + 1 + (n : ℤ) - 1)) := by
      ext x
      simp only [Finset.mem_Icc, Finset.mem_insert]
      push_cast
      omega
    rw [hins, Finset.sum_insert (by simp only [Finset.mem_Icc]; omega),
      mul_add, ih (s + 1)]
    push_cast
    ring

theorem sum_range_value :
    ∑ x ∈ Finset.Icc START_NUM END_NUM, x = 12000003000000 := by
  have h := sum_Icc_gauss 4000001 1000000
  rw [show (1000000 : ℤ) + ((4000001 : ℕ) : ℤ) - 1 = 5000000 from by norm_num] at h
  rw [show ((4000001 : ℕ) : ℤ) * (2 * 1000000 + ((4000001 : ℕ) : ℤ) - 1)
      = 24000006000000 from by norm_num] at h
  simp only [START_NUM, END_NUM]
  omega

theorem expected_result_value : expected_result = 12000003000000 := by decide

/-- C3: the closed-form expected value computed by the runner (lines 129-132)
equals the exact sum of the integers from `START_NUM = 1000000` to
`END_NUM = 5000000`; every intermediate of that computation is nonnegative
and below `2 ^ 63`, and every partial accumulation (the sum over any subset
of the workload) lies between `0` and `expected_result < 2 ^ 63`, so the
computation and the accumulated sum fit in a 64-bit signed integer. -/
theorem expected_result_correct :
    expected_result = ∑ x ∈ Finset.Icc START_NUM END_NUM, x ∧
    (0 ≤ END_NUM * (END_NUM + 1) ∧ END_NUM * (END_NUM + 1) < 2 ^ 63) ∧
    (0 ≤ sum_to_end ∧ sum_to_end < 2 ^ 63) ∧
    (0 ≤ (START_NUM - 1) * START_NUM ∧ (START_NUM - 1) * START_NUM < 2 ^ 63) ∧
    (0 ≤ sum_to_start_minus_1 ∧ sum_to_start_minus_1 < 2 ^ 63) ∧
    (0 ≤ expected_result ∧ expected_result < 2 ^ 63) ∧
    ∀ S : Finset ℤ, S ⊆ Finset.Icc START_NUM END_NUM →
      0 ≤ ∑ x ∈ S, x ∧ ∑ x ∈ S, x ≤ expected_result := by
  have hmem : ∀ x ∈ Finset.Icc START_NUM END_NUM, (0 : ℤ) ≤ x := by
    intro x hx
    rw [Finset.mem_Icc] at hx
    simp only [START_NUM, END_NUM] at hx
    omega
  refine ⟨by rw [expected_result_value, sum_range_value], by decide, by decide,
    by decide, by decide, by decide, ?_⟩
  intro S hS
  have hpos : 0 ≤ ∑ x ∈ S, x := Finset.sum_nonneg fun x hx => hmem x (hS hx)
  refine ⟨hpos, ?_⟩
  calc ∑ x ∈ S, x
      ≤ ∑ x ∈ Finset.Icc START_NUM END_NUM, x :=
        Finset.sum_le_sum_of_subset_of_nonneg hS fun x hx _ => hmem x hx
    _ = expected_result := by rw [expected_result_value, sum_range_value]

/-- Witness for C3: the subset bound applied to the empty subset of the
workload. -/
theorem expected_result_correct_witness :
    0 ≤ ∑ x ∈ (∅ : Finset ℤ), x ∧ ∑ x ∈ (∅ : Finset ℤ), x ≤ expected_result :=
  expected_result_correct.2.2.2.2.2.2 ∅ (Finset.empty_subset _)

theorem pendingSum_set : ∀ (l : List (List ℤ)) (t : ℕ) (v : ℤ) (rest : List ℤ),
    l.getD t [] = v :: rest → pendingSum (l.set t rest) = pendingSum l - v := by
  intro l
  induction l with
  | nil =>
    intro t v rest h
    simp [List.getD] at h
  | cons hd tl ih =>
    intro t v rest h
    cases t with
    | zero =>
      simp only [List.getD_cons_zero] at h
      subst h
      simp only [List.set_cons_zero, pendingSum, List.map_cons, List.sum_cons, List.sum_cons]
      ring
    | succ t =>
      simp only [List.getD_cons_succ] at h
      have htl := ih t v rest h
      simp only [List.set_cons_succ, pendingSum, List.map_cons, List.sum_cons] at *
      omega

theorem schedStep_invariant (st : ℤ × List (List ℤ)) (t : ℕ) :
    (schedStep st t).1 + pendingSum (schedStep st t).2 = st.1 + pendingSum st.2 := by
  unfold schedStep
  cases h : st.2.getD t [] with
  | nil => rfl
  | cons v rest =>
    simp only
    rw [pendingSum_set st.2 t v rest h]
    ring

theorem runSched_invariant : ∀ (sched : List ℕ) (st : ℤ × List (List ℤ)),
    (runSched st sched).1 + pendingSum (runSched st sched).2 = st.1 + pendingSum st.2 := by
  intro sched
  induction sched with
  | nil => intro st; rfl
  | cons t sched ih =>
    intro st
    have h1 := schedStep_invariant st t
    have h2 := ih (schedStep st t)
    simp only [runSched, List.foldl_cons] at *
    omega

theorem runSched_complete_total (st : ℤ × List (List ℤ)) (sched : List ℕ)
    (h : CompleteSched st sched) :
    (runSched st sched).1 = st.1 + pendingSum st.2 := by
  have hinv := runSched_invariant sched st
  have hzero : pendingSum (runSched st sched).2 = 0 := by
    apply List.sum_eq_zero
    intro x hx
    simp only [List.mem_map] at hx
    obtain ⟨l, hl, rfl⟩ := hx
    rw [h l hl]
    rfl
  omega

theorem workerMutations_sum (s e : ℤ) :
    (workerMutations s e).sum = ∑ x ∈ Finset.Icc s e, x := by
  unfold workerMutations
  rw [workerOpsAux_sum]
  by_cases h : s ≤ e
  · have ht : (((e + 1 - s).toNat : ℕ) : ℤ) = e + 1 - s := Int.toNat_of_nonneg (by omega)
    rw [ht, show s + (e + 1 - s) - 1 = e from by ring]
  · have h0 : (e + 1 - s).toNat = 0 := by omega
    have h1 : Finset.Icc s (s + (((e + 1 - s).toNat : ℕ) : ℤ) - 1) = ∅ :=
      Finset.Icc_eq_empty (by rw [h0]; push_cast; omega)
    have h2 : Finset.Icc s e = ∅ := Finset.Icc_eq_empty (by omega)
    rw [h1, h2]

theorem sum_Icc_glue (a b c : ℤ) (h1 : a ≤ b) (h2 : b ≤ c + 1) :
    (∑ x ∈ Finset.Icc a (b - 1), x) + ∑ x ∈ Finset.Icc b c, x
      = ∑ x ∈ Finset.Icc a c, x := by
  have hdisj : Disjoint (Finset.Icc a (b - 1)) (Finset.Icc b c) := by
    rw [Finset.disjoint_left]
    intro x hx1 hx2
    rw [Finset.mem_Icc] at hx1 hx2
    omega
  rw [← Finset.sum_union hdisj]
  congr 1
  ext x
  simp only [Finset.mem_union, Finset.mem_Icc]
  omega

theorem telescope_sum : ∀ (N : ℕ) (g : ℕ → ℤ), (∀ j k, j ≤ k → g j ≤ g k) →
    ((List.range N).map fun j => ∑ x ∈ Finset.Icc (g j) (g (j + 1) - 1), x).sum
      = ∑ x ∈ Finset.Icc (g 0) (g N - 1), x := by
  intro N
  induction N with
  | zero =>
    intro g hg
    have h : Finset.Icc (g 0) (g 0 - 1) = ∅ := Finset.Icc_eq_empty (by omega)
    simp [h]
  | succ N ih =>
    intro g hg
    rw [List.range_succ, List.map_append, List.sum_append, ih g hg]
    simp only [List.map_cons, List.map_nil, List.sum_cons, List.sum_nil, add_zero]
    exact sum_Icc_glue (g 0) (g N) (g (N + 1) - 1)
      (hg 0 N (Nat.zero_le N)) (by have := hg N (N + 1) (by omega); omega)

theorem threadJobs_sum (N : ℕ) (hN : 1 ≤ N) :
    pendingSum (threadJobs N) = expected_result := by
  unfold threadJobs pendingSum
  rw [partition_closed, List.map_map, List.map_map]
  have hmap : (List.range N).map
        ((List.sum ∘ fun p : ℤ × ℤ => workerMutations p.1 p.2)
          ∘ idealPiece START_NUM NUM_OPERATIONS N)
      = (List.range N).map fun j =>
          ∑ x ∈ Finset.Icc ((fun j => START_NUM + (prefixCount NUM_OPERATIONS N j : ℤ)) j)
            ((fun j => START_NUM + (prefixCount NUM_OPERATIONS N j : ℤ)) (j + 1) - 1), x := by
    refine List.map_congr_left fun j hj => ?_
    show (workerMutations (idealPiece START_NUM NUM_OPERATIONS N j).1
        (idealPiece START_NUM NUM_OPERATIONS N j).2).sum = _
    rw [workerMutations_sum]
    rfl
  rw [hmap, telescope_sum N _ ?_]
  · rw [prefixCount_zero, prefixCount_n NUM_OPERATIONS N hN]
    rw [show START_NUM + ((0 : ℕ) : ℤ) = START_NUM from by push_cast; ring]
    rw [show START_NUM + ((NUM_OPERATIONS : ℕ) : ℤ) - 1 = END_NUM from by decide]
    rw [sum_range_value, expected_result_value]
  · intro j k hjk
    have := prefixCount_mono NUM_OPERATIONS N hjk
    have h' : ((prefixCount NUM_OPERATIONS N j : ℕ) : ℤ)
        ≤ ((prefixCount NUM_OPERATIONS N k : ℕ) : ℤ) := by exact_mod_cast this
    show START_NUM + (prefixCount NUM_OPERATIONS N j : ℤ)
        ≤ START_NUM + (prefixCount NUM_OPERATIONS N k : ℤ)
    omega

/-- C4: for every lock variant and every thread count `N ≥ 1` (in particular
all of 1, 2, 4, 8, 16, 32, 64), every complete interleaving of the locked
workers leaves the accumulator exactly at the closed-form expected value —
with zero tolerance, on every run (i.e. for every schedule). -/
theorem locked_run_yields_expected (v : LockVariant) (N : ℕ) (hN : 1 ≤ N)
    (sched : List ℕ) (h : CompleteSched (0, lockedThreadJobs v N) sched) :
    (runSched (0, lockedThreadJobs v N) sched).1 = expected_result := by
  have htot := runSched_complete_total (0, lockedThreadJobs v N) sched h
  rw [htot]
  show (0 : ℤ) + pendingSum (threadJobs N) = expected_result
  rw [zero_add, threadJobs_sum N hN]

theorem runSched_nil_jobs : ∀ (sched : List ℕ) (c : ℤ),
    runSched (c, ([] : List (List ℤ))) sched = (c, []) := by
  intro sched
  induction sched with
  | nil => intro c; rfl
  | cons t sched ih =>
    intro c
    simp only [runSched, List.foldl_cons]
    have hstep : schedStep (c, ([] : List (List ℤ))) t = (c, []) := rfl
    rw [hstep]
    exact ih c

theorem runSched_single_drain : ∀ (l : List ℤ) (c : ℤ),
    runSched (c, [l]) (List.replicate l.length 0) = (c + l.sum, [[]]) := by
  intro l
  induction l with
  | nil =>
    intro c
    show (c, [([] : List ℤ)]) = (c + ([] : List ℤ).sum, [[]])
    simp
  | cons v rest ih =>
    intro c
    simp only [List.length_cons, List.replicate_succ, runSched, List.foldl_cons]
    have hstep : schedStep (c, [v :: rest]) 0 = (c + v, [rest]) := rfl
    rw [hstep]
    have h2 := ih (c + v)
    simp only [runSched] at h2
    rw [h2]
    rw [show c + v + rest.sum = c + (v :: rest).sum from by rw [List.sum_cons]; ring]

theorem workerOpsAux_length : ∀ (fuel : ℕ) (i : ℤ),
    (workerOpsAux fuel i).length = fuel := by
  intro fuel
  induction fuel with
  | zero => intro i; rfl
  | succ fuel ih =>
    intro i
    simp only [workerOpsAux, List.length_cons, ih (i + 1)]

theorem threadJobs_one : threadJobs 1 = [workerMutations START_NUM END_NUM] := by
  have hpart : partition START_NUM NUM_OPERATIONS 1 = [(START_NUM, END_NUM)] := by decide
  unfold threadJobs
  rw [hpart]
  rfl

theorem mutations_full_length : (workerMutations START_NUM END_NUM).length = 4000001 := by
  unfold workerMutations
  rw [workerOpsAux_length]
  decide

theorem complete_one :
    CompleteSched (0, threadJobs 1) (List.replicate 4000001 0) := by
  unfold CompleteSched
  rw [threadJobs_one, show (4000001 : ℕ) = (workerMutations START_NUM END_NUM).length
    from mutations_full_length.symm, runSched_single_drain]
  intro l hl
  simp only [List.mem_singleton] at hl
  exact hl

/-- Witness for C4: a single worker draining the whole workload, scheduled
step by step, ends exactly at the expected value. -/
theorem locked_run_yields_expected_witness :
    (runSched (0, lockedThreadJobs LockVariant.ttas 1) (List.replicate 4000001 0)).1
      = expected_result :=
  locked_run_yields_expected LockVariant.ttas 1 (by decide) _ complete_one

/-- C7 counterexample: at the invalid configuration `num_threads = 0` the
runner does not fail at all — the embedding of `run_experiment`, which is
total exactly because the source has no failure path, runs with zero spawned
workers and returns the normal report `(0, Incorrect)`; the partition loop
just produces zero sub-ranges instead of failing.  This contradicts "fails
fast before any worker thread is spawned ... never silently runs with zero
threads". -/
theorem no_failfast_counterexample :
    run_experiment 5 0 [] = (0, false) ∧ threadJobs (0 : ℤ).toNat = [] :=
  ⟨by decide, rfl⟩

/-- C7 amended: the source performs no configuration validation.  For any
non-positive `num_threads` the runner silently spawns zero workers, leaves
the freshly reset accumulator at 0 and returns a normal report with the
Incorrect verdict (rather than failing fast); the partitioner has no failure
path at all.  (The workload range constants are fixed and non-empty, so the
empty-range case does not arise in the source.) -/
theorem no_validation_behavior (g n : ℤ) (sched : List ℕ) (hn : n ≤ 0) :
    run_experiment g n sched = (0, false) ∧ threadJobs n.toNat = [] := by
  have h0 : n.toNat = 0 := by omega
  have hjobs : threadJobs n.toNat = [] := by rw [h0]; rfl
  refine ⟨?_, hjobs⟩
  simp only [run_experiment, hjobs]
  rw [runSched_nil_jobs sched]
  decide

/-- Witness for the amended C7, at `num_threads = -1`. -/
theorem no_validation_behavior_witness :
    run_experiment 5 (-1) [] = (0, false) :=
  (no_validation_behavior 5 (-1) [] (by decide)).1

/-- C9: the experiment resets the shared accumulator to zero before spawning
any worker and reads it only after all workers have joined; hence for any two
prior accumulator values the produced (final value, verdict) pairs are
identical, and any complete run with `n ≥ 1` threads reports exactly
`(expected_result, correct)` regardless of prior state. -/
theorem experiment_ignores_prior_state :
    (∀ g0 g1 n sched, run_experiment g0 n sched = run_experiment g1 n sched) ∧
    ∀ (g n : ℤ) (sched : List ℕ), 1 ≤ n →
      CompleteSched (0, threadJobs n.toNat) sched →
      run_experiment g n sched = (expected_result, true) := by
  constructor
  · intro g0 g1 n sched
    rfl
  · intro g n sched hn hc
    have h1 : (runSched (0, threadJobs n.toNat) sched).1 = expected_result := by
      have htot := runSched_complete_total (0, threadJobs n.toNat) sched hc
      rw [htot]
      show (0 : ℤ) + pendingSum (threadJobs n.toNat) = expected_result
      rw [zero_add, threadJobs_sum n.toNat (by omega)]
    simp only [run_experiment, h1]
    simp

/-- Witness for C9: a complete single-threaded run on top of the stale prior
accumulator value 7 still reports the expected result as correct. -/
theorem experiment_ignores_prior_state_witness :
    run_experiment 7 1 (List.replicate 4000001 0) = (expected_result, true) :=
  experiment_ignores_prior_state.2 7 1 (List.replicate 4000001 0) (by decide) complete_one

end Homework
